import Mathlib

/-!
Verification of the zeropool relayer core against its specification.

The development shallowly embeds the relevant Rust modules:
* `src/tx_storage.rs` — the dense transaction log (`TxStorage`);
* `src/json_api.rs` — the stateless validator and the create-transaction handler;
* `src/tx_worker.rs` — `prepare_job`, `process_failure`, and the busy-wait
  turn loop of `process_job`;
* `src/merkle_tree.rs` — the persistent sparse Poseidon Merkle tree.

Byte strings are `List Nat` (each entry one byte), field elements are `Nat`,
and the Poseidon compression function is an abstract parameter
(`HashCfg.compress`), since the spec treats the hash as an external pure
function.  Machine integers (`u64` indices) cannot overflow in any scenario
considered here, so they are modelled as `Nat`.
-/

namespace ZeropoolRelayer

/-- OUT + 1 = 128, the number of output slots per transfer
(`const STRIDE: u64 = constants::OUT as u64 + 1` in `tx_storage.rs`,
`const TX_SIZE` in `tx_worker.rs`). -/
def STRIDE : Nat := 128

/-- Big-endian 32-byte serialization of a field element,
`out_commit.0.to_uint().to_big_endian()` in `TxStorage::set`. -/
def natToBE32 (x : Nat) : List Nat :=
  (List.range 32).map (fun i => x / 256 ^ (31 - i) % 256)

/-! ## Transaction log (`src/tx_storage.rs`) -/

/-- State of `TxStorage`: the `keys`/`data` contents as a map from index to
record bytes, plus the `meta`/`next_index` counter.  A fresh store starts
with no rows and `next_index = 0` (`TxStorage::open`). -/
structure TxStorage where
  rows : Nat → Option (List Nat)
  nextIndex : Nat

/-- Error returned by `TxStorage::set` when `index > next_index`
(`anyhow!("Invalid index: expected {}, got {}",…)`). -/
inductive TxStorageError where
  | invalidIndex (expected got : Nat)
deriving DecidableEq

/-- The freshly opened store (`TxStorage::open` creates empty `keys`
and `data` and puts `next_index = 0`). -/
def TxStorage.empty : TxStorage where
  rows := fun _ => none
  nextIndex := 0

/-- `TxStorage::set(index, out_commit, tx_hash, memo)`: rejects
`index > next_index`; otherwise stores
`out_commit(32 BE) ‖ tx_hash ‖ memo` at `index` (replacing any previous row,
`ValueMode::Replace`) and sets `next_index = index + STRIDE`. -/
def TxStorage.set (s : TxStorage) (index : Nat) (outCommit : Nat)
    (txHash memo : List Nat) : Except TxStorageError TxStorage :=
  if index > s.nextIndex then
    .error (.invalidIndex s.nextIndex index)
  else
    .ok { rows := fun i =>
            if i = index then some (natToBE32 outCommit ++ txHash ++ memo)
            else s.rows i,
          nextIndex := index + STRIDE }

/-- `TxStorage::rollback(index)`: removes every row with index ≥ `index`
and sets `next_index = index`. -/
def TxStorage.rollback (s : TxStorage) (index : Nat) : TxStorage where
  rows := fun i => if index ≤ i then none else s.rows i
  nextIndex := index

/-- C5: a push with `index > next_index` returns the invalid-index error (the
check precedes every write, so the store is unchanged in that case); a push
with `index ≤ next_index` (append when equal, overwrite when below) succeeds,
stores `out_commit(32 BE) ‖ tx_hash ‖ ciphertext` at `index` leaving all
other rows intact, and sets `next_index = index + STRIDE`. -/
theorem txStorage_set_spec (s : TxStorage) (index outCommit : Nat)
    (txHash memo : List Nat) :
    (index > s.nextIndex →
      s.set index outCommit txHash memo = .error (.invalidIndex s.nextIndex index)) ∧
    (index ≤ s.nextIndex →
      ∃ t, s.set index outCommit txHash memo = .ok t ∧
        t.rows index = some (natToBE32 outCommit ++ txHash ++ memo) ∧
        (∀ j, j ≠ index → t.rows j = s.rows j) ∧
        t.nextIndex = index + STRIDE) := by
  constructor
  · intro h
    simp [TxStorage.set, h]
  · intro h
    unfold TxStorage.set
    rw [if_neg (Nat.not_lt.mpr h)]
    exact ⟨_, rfl, by simp, fun j hj => by simp [hj], rfl⟩

/-- C5 witness: pushing at `index = 0` on the fresh store succeeds with the
record `natToBE32 5 ++ [1] ++ [2]` and `next_index = 128`. -/
theorem txStorage_set_spec_witness :
    (0 ≤ TxStorage.empty.nextIndex) ∧
    (∃ t, TxStorage.empty.set 0 5 [1] [2] = .ok t ∧
      t.rows 0 = some (natToBE32 5 ++ [1] ++ [2]) ∧
      (∀ j, j ≠ 0 → t.rows j = TxStorage.empty.rows j) ∧
      t.nextIndex = 0 + STRIDE) :=
  ⟨Nat.zero_le _, (txStorage_set_spec TxStorage.empty 0 5 [1] [2]).2 (Nat.zero_le _)⟩

/-- C6: the code accepts `push(1, …)` right after `push(0, …)` — the second
push is treated as an overwrite because `1 ≤ next_index = 128` — leaving
`next_index = 129`, a non-multiple of STRIDE; the file's own unit test
`test_tx_storage_set` asserts that this call errors, and the claimed
monotonicity invariant fails. -/
theorem txStorage_set_accepts_index_one :
    ∃ s1 s2, TxStorage.empty.set 0 0 [0, 1, 2] [3, 4, 5] = .ok s1 ∧
      s1.set 1 0 [0, 1, 2] [3, 4, 5] = .ok s2 ∧
      s1.nextIndex = 128 ∧ s2.nextIndex = 129 ∧ s2.rows 1 ≠ none :=
  ⟨_, _, rfl, rfl, rfl, rfl, by simp⟩

/-! ## Validator and create-transaction handler (`src/json_api.rs`) -/

/-- `TxType` (`zeropool_tx::TxType`): values `0000`/`0001`/`0002`. -/
inductive TxType where
  | deposit
  | transfer
  | withdraw
deriving DecidableEq

/-- `TxValidationError` (`src/tx.rs`). -/
inductive TxValidationError where
  | emptyMemo
  | invalidTransferProof
  | insufficientBalance
  | feeTooLow
  | invalidValues
  | invalidTxIndex
deriving DecidableEq

/-- A Rust panic observed while evaluating the handler: `Result::unwrap` on
an `Err` (the `read_u64` of a short memo) or an out-of-bounds `Vec` index
(`proof.inputs[i]`). -/
inductive RustPanic where
  | unwrapFailed
  | indexOutOfBounds
deriving DecidableEq

/-- `TxDataRequest` as far as the validator inspects it: the transfer-proof
public `inputs` (field elements), the `memo` and `extra_data` bytes, and the
transaction type.  The proof itself only flows into the abstract verifier. -/
structure TxDataRequest where
  txType : TxType
  inputs : List Nat
  memo : List Nat
  extraData : List Nat

/-- Collaborators of `validate_tx` that live outside the embedded code: the
result of `verify(transfer_vk, proof, inputs)`, the configured fee, the
current `pool_index` snapshot, and the external `parse_delta` returning
`(token_amount, energy_amount, transfer_index, pool_id)` as 256-bit values. -/
structure ValidatorEnv where
  verifyOk : Bool
  fee : Nat
  poolIndex : Nat
  parseDelta : Nat → Nat × Nat × Nat × Nat

/-- Big-endian u64 read of the first 8 bytes
(`memo_reader.read_u64::<BigEndian>()`); `none` models the `Err` that the
source immediately `unwrap`s. -/
def readU64BE (bytes : List Nat) : Option Nat :=
  if bytes.length < 8 then none
  else some ((bytes.take 8).foldl (fun a b => a * 256 + b) 0)

/-- List indexing `v[i]` with the panic on out-of-bounds modelled as an
exception. -/
def vecIndex (l : List Nat) (i : Nat) : Except RustPanic Nat :=
  match l.get? i with
  | some v => .ok v
  | none => .error .indexOutOfBounds

/-- `validate_tx(tx, state)` from `src/json_api.rs`, with errors accumulated
in source order.  The unchecked `read_u64(…).unwrap()` and the unchecked
`proof.inputs[3]` are modelled as potential panics. -/
def validateTx (env : ValidatorEnv) (tx : TxDataRequest) :
    Except RustPanic (List TxValidationError) := do
  let e1 : List TxValidationError :=
    if env.verifyOk then [] else [.invalidTransferProof]
  let e2 := e1 ++ (if tx.memo.length < 8 then [.emptyMemo] else [])
  let fee ← match readU64BE tx.memo with
    | some f => Except.ok f
    | none => Except.error RustPanic.unwrapFailed
  let e3 := e2 ++ (if fee < env.fee then [.feeTooLow] else [])
  let delta ← vecIndex tx.inputs 3
  let td := env.parseDelta delta
  let tokenAmount := td.1
  let energyAmount := td.2.1
  let transferIndex := td.2.2.1
  let e4 := e3 ++ (if transferIndex > env.poolIndex then [.invalidTxIndex] else [])
  let isTokenAmountNegative : Bool := tokenAmount >>> 255 != 0
  let isTokenAmountPositive : Bool := !isTokenAmountNegative && tokenAmount != 0
  let isEnergyAmountPositive : Bool := energyAmount >>> 255 == 0 && energyAmount != 0
  let e5 := e4 ++ (match tx.txType with
    | .deposit =>
      if isTokenAmountNegative || energyAmount != 0 then [.invalidValues] else []
    | .transfer =>
      if tokenAmount != 0 || energyAmount != 0 then [.invalidValues] else []
    | .withdraw =>
      if isTokenAmountPositive || isEnergyAmountPositive then [.invalidValues] else [])
  return e5

/-- Outcome of the `create_transaction` handler: a `400` with the
accumulated validation errors, or a created job. -/
inductive HandlerResponse where
  | validationErrors (errors : List TxValidationError)
  | jobCreated
deriving DecidableEq

/-- `create_transaction` from `src/json_api.rs`: runs `validate_tx`, builds
`ParsedTxData` by indexing `proof.inputs[3]`, `[2]`, `[1]`, extends the
error list with the backend checks (abstract `backendErrors`), and either
returns the 400 body or proceeds to `prepare_job`/`push` (abstracted as
`jobCreated`). -/
def createTransaction (env : ValidatorEnv) (backendErrors : List TxValidationError)
    (tx : TxDataRequest) : Except RustPanic HandlerResponse := do
  let errs ← validateTx env tx
  let _delta ← vecIndex tx.inputs 3
  let _outCommit ← vecIndex tx.inputs 2
  let _nullifier ← vecIndex tx.inputs 1
  let errs := errs ++ backendErrors
  if errs.isEmpty then return .jobCreated else return .validationErrors errs

/-- C7: on a memo of length 7 the handler does not return a 400 with
`EmptyMemo` — after recording `EmptyMemo`, `validate_tx` unconditionally
`unwrap`s `read_u64` on the 7-byte memo and panics, so `create_transaction`
panics on every such request (here: a request that passes every other check). -/
theorem validateTx_short_memo_panics :
    createTransaction
        { verifyOk := true, fee := 0, poolIndex := 0,
          parseDelta := fun _ => (0, 0, 0, 0) }
        []
        { txType := .deposit, inputs := [0, 1, 2, 3], memo := [0, 0, 0, 0, 0, 0, 0],
          extraData := [] }
      = .error .unwrapFailed ∧
    createTransaction
        { verifyOk := true, fee := 0, poolIndex := 0,
          parseDelta := fun _ => (0, 0, 0, 0) }
        []
        { txType := .deposit, inputs := [0, 1, 2, 3], memo := [0, 0, 0, 0, 0, 0, 0, 0],
          extraData := [] }
      = .ok .jobCreated := by
  constructor <;> rfl

/-- C10: whenever `proof.inputs` has fewer than 4 elements the handler
panics (either at the unchecked `inputs[3]` in `validate_tx`, or — if the
memo is also short — already at the memo `unwrap`) instead of producing a
response. -/
theorem createTransaction_short_inputs_panics (env : ValidatorEnv)
    (backendErrors : List TxValidationError) (tx : TxDataRequest)
    (h : tx.inputs.length < 4) :
    ∃ p, createTransaction env backendErrors tx = .error p := by
  have hidx : vecIndex tx.inputs 3 = .error .indexOutOfBounds := by
    unfold vecIndex
    rw [List.get?_eq_none.mpr (by omega)]
  unfold createTransaction validateTx
  by_cases hm : tx.memo.length < 8
  · refine ⟨.unwrapFailed, ?_⟩
    simp [readU64BE, hm, Except.bind, bind]
  · refine ⟨.indexOutOfBounds, ?_⟩
    simp [readU64BE, hm, hidx, Except.bind, bind]

/-- C10 witness: a request with only 3 proof inputs and a well-formed memo
panics. -/
theorem createTransaction_short_inputs_panics_witness :
    ([0, 1, 2] : List Nat).length < 4 ∧
    ∃ p, createTransaction
        { verifyOk := true, fee := 0, poolIndex := 0,
          parseDelta := fun _ => (0, 0, 0, 0) }
        []
        { txType := .deposit, inputs := [0, 1, 2], memo := [0, 0, 0, 0, 0, 0, 0, 0],
          extraData := [] }
      = .error p :=
  ⟨by decide,
   createTransaction_short_inputs_panics
     { verifyOk := true, fee := 0, poolIndex := 0, parseDelta := fun _ => (0, 0, 0, 0) }
     []
     { txType := .deposit, inputs := [0, 1, 2], memo := [0, 0, 0, 0, 0, 0, 0, 0],
       extraData := [] }
     (by decide)⟩

/-! ## The busy-wait turn loop of `process_job` (`src/tx_worker.rs`) -/

/-- One iteration's observations of the shared collaborators inside the
`loop` of `process_job`: the result of `job_queue.is_job_cancelled(job.id)`
and the value read from `*ctx.pool_index.read()`. -/
structure TurnObs where
  cancelled : Bool
  poolIndex : Nat

/-- How the loop exits, given the finite trace of observations it makes:
`sendTx` means control fell through to `backend.send_tx`; `cancelledErr`
means the job observed its cancellation and returned
`Err(anyhow!("Job cancelled"))`; `stillWaiting` means the trace ended with
the loop still sleeping (the real loop would poll again). -/
inductive AwaitOutcome where
  | sendTx
  | cancelledErr
  | stillWaiting
deriving DecidableEq

/-- The `loop { … }` before `backend.send_tx` in `process_job`: each
iteration first checks cancellation (returning an error if set), then breaks
exactly when `pool_index == next_commit_index * TX_SIZE`, else sleeps and
polls again. -/
def awaitTurn (nextCommitIndex : Nat) : List TurnObs → AwaitOutcome
  | [] => .stillWaiting
  | o :: rest =>
    if o.cancelled then .cancelledErr
    else if o.poolIndex = nextCommitIndex * STRIDE then .sendTx
    else awaitTurn nextCommitIndex rest

/-- C9: the loop reaches `send_tx` exactly when some iteration observes
an uncancelled job with `pool_index = next_commit_index * STRIDE` after
iterations that observed neither cancellation nor the turn; and it returns
the cancellation error (never submitting) exactly when the first deciding
observation is a cancellation. -/
theorem awaitTurn_send_guard (nextCommitIndex : Nat) (obs : List TurnObs) :
    (awaitTurn nextCommitIndex obs = .sendTx ↔
      ∃ pre o post, obs = pre ++ o :: post ∧
        (∀ p ∈ pre, p.cancelled = false ∧ p.poolIndex ≠ nextCommitIndex * STRIDE) ∧
        o.cancelled = false ∧ o.poolIndex = nextCommitIndex * STRIDE) ∧
    (awaitTurn nextCommitIndex obs = .cancelledErr ↔
      ∃ pre o post, obs = pre ++ o :: post ∧
        (∀ p ∈ pre, p.cancelled = false ∧ p.poolIndex ≠ nextCommitIndex * STRIDE) ∧
        o.cancelled = true) := by
  induction obs with
  | nil =>
    constructor <;> constructor
    · intro h
      simp [awaitTurn] at h
    · rintro ⟨pre, o, post, habs, -⟩
      exact absurd habs (by simp)
    · intro h
      simp [awaitTurn] at h
    · rintro ⟨pre, o, post, habs, -⟩
      exact absurd habs (by simp)
  | cons hd tl ih =>
    by_cases hc : hd.cancelled
    · constructor
      · constructor
        · intro h
          simp [awaitTurn, hc] at h
        · rintro ⟨pre, o, post, heq, hpre, hoc, hop⟩
          cases pre with
          | nil =>
            simp only [List.nil_append, List.cons.injEq] at heq
            rw [← heq.1] at hoc
            rw [hoc] at hc
            exact absurd hc (by simp)
          | cons p ps =>
            simp only [List.cons_append, List.cons.injEq] at heq
            have := hpre p (by simp)
            rw [← heq.1] at this
            rw [this.1] at hc
            exact absurd hc (by simp)
      · constructor
        · intro _
          exact ⟨[], hd, tl, by simp, by simp, hc⟩
        · intro _
          simp [awaitTurn, hc]
    · by_cases hp : hd.poolIndex = nextCommitIndex * STRIDE
      · constructor
        · constructor
          · intro _
            exact ⟨[], hd, tl, by simp, by simp, by simp [hc], hp⟩
          · intro _
            simp [awaitTurn, hc, hp]
        · constructor
          · intro h
            simp [awaitTurn, hc, hp] at h
          · rintro ⟨pre, o, post, heq, hpre, hoc⟩
            cases pre with
            | nil =>
              simp only [List.nil_append, List.cons.injEq] at heq
              rw [← heq.1] at hoc
              rw [hoc] at hc
              exact absurd rfl hc
            | cons p ps =>
              simp only [List.cons_append, List.cons.injEq] at heq
              have := hpre p (by simp)
              rw [← heq.1] at this
              exact absurd hp (by exact this.2)
      · have hstep : awaitTurn nextCommitIndex (hd :: tl) = awaitTurn nextCommitIndex tl := by
          simp [awaitTurn, hc, hp]
        constructor
        · rw [hstep, ih.1]
          constructor
          · rintro ⟨pre, o, post, heq, hpre, hoc, hop⟩
            refine ⟨hd :: pre, o, post, by simp [heq], ?_, hoc, hop⟩
            intro p hmem
            rcases List.mem_cons.mp hmem with h1 | h2
            · subst h1
              exact ⟨by simp [hc], hp⟩
            · exact hpre p h2
          · rintro ⟨pre, o, post, heq, hpre, hoc, hop⟩
            cases pre with
            | nil =>
              simp only [List.nil_append, List.cons.injEq] at heq
              rw [← heq.1] at hop
              exact absurd hop hp
            | cons p ps =>
              simp only [List.cons_append, List.cons.injEq] at heq
              exact ⟨ps, o, post, heq.2, fun q hq => hpre q (by simp [hq]), hoc, hop⟩
        · rw [hstep, ih.2]
          constructor
          · rintro ⟨pre, o, post, heq, hpre, hoc⟩
            refine ⟨hd :: pre, o, post, by simp [heq], ?_, hoc⟩
            intro p hmem
            rcases List.mem_cons.mp hmem with h1 | h2
            · subst h1
              exact ⟨by simp [hc], hp⟩
            · exact hpre p h2
          · rintro ⟨pre, o, post, heq, hpre, hoc⟩
            cases pre with
            | nil =>
              simp only [List.nil_append, List.cons.injEq] at heq
              rw [← heq.1] at hoc
              rw [hoc] at hc
              exact absurd rfl hc
            | cons p ps =>
              simp only [List.cons_append, List.cons.injEq] at heq
              exact ⟨ps, o, post, heq.2, fun q hq => hpre q (by simp [hq]), hoc⟩

/-! ## Merkle tree engine (`src/merkle_tree.rs`)

The persy `data_index` is a map keyed by `(depth, index)` (the source packs
the pair into `(1 << depth) - 1 + index`; we keep the pair, which is the same
keyspace restricted to `index < 2^depth`, and nothing below depends on the
packing).  The Poseidon compression `poseidon([l, r], POOL_PARAMS.compress())`
is the abstract `compress`, the default leaf value `default_nodes[H]` is the
abstract `defLeaf`, and `H = constants::HEIGHT - constants::OUTPLUSONELOG`
(48 − 7 = 41 for the real parameters) is kept as a parameter `H`. -/

/-- The external hash parameters: the two-child Poseidon compression, the
default node value at leaf depth `H`, and the tree height `H`. -/
structure HashCfg where
  compress : Nat → Nat → Nat
  defLeaf : Nat
  H : Nat

/-- n-fold self-compression, `full_default_nodes[i] = poseidon([t, t])` in
`MerkleTree::open`. -/
def dupIter (f : Nat → Nat → Nat) : Nat → Nat → Nat
  | 0, x => x
  | n + 1, x => f (dupIter f n x) (dupIter f n x)

/-- `default_nodes[d]` for `d ≤ H`: the default at depth `d` is the
`(H − d)`-fold self-compression of the default leaf. -/
def HashCfg.defNode (cfg : HashCfg) (d : Nat) : Nat :=
  dupIter cfg.compress (cfg.H - d) cfg.defLeaf

/-- Contents of the `data_index`: stored hash at `(depth, index)`, if any. -/
def NodeMap : Type := Nat → Nat → Option Nat

/-- `Storage::set` on the node index. -/
def putNode (m : NodeMap) (d i v : Nat) : NodeMap :=
  fun e j => if e = d ∧ j = i then some v else m e j

/-- `Storage::delete` on the node index. -/
def delNode (m : NodeMap) (d i : Nat) : NodeMap :=
  fun e j => if e = d ∧ j = i then none else m e j

/-- The rollback loop's inner deletion
`for i in (cur_index + 1)..cur_num_leaves + 1 { delete(depth, i) }`:
removes every entry at depth `d` with column in `[lo, hi]`. -/
def delRange (m : NodeMap) (d lo hi : Nat) : NodeMap :=
  fun e j => if e = d ∧ lo ≤ j ∧ j ≤ hi then none else m e j

/-- Read with default: `get(depth, index).unwrap_or(default_nodes[depth])`. -/
def getNodeD (cfg : HashCfg) (m : NodeMap) (d i : Nat) : Nat :=
  (m d i).getD (cfg.defNode d)

/-- The default-equality rule shared by `set_node` and `rollback`: a
recomputed value equal to its depth's default is deleted, any other value is
written. -/
def writeOrDelete (cfg : HashCfg) (m : NodeMap) (d i v : Nat) : NodeMap :=
  if v = cfg.defNode d then delNode m d i else putNode m d i v

/-- In-memory image of one `tree.persy` file: the node store, the
`num_leaves` meta entry, and the `roots` index. -/
structure MerkleTree where
  nodes : NodeMap
  numLeaves : Nat
  roots : Nat → Option Nat

/-- A freshly opened tree (`MerkleTree::open` on a new file): empty node
store, `num_leaves = 0`, and the empty-tree default root recorded at
key 0 of the `roots` index. -/
def MerkleTree.fresh (cfg : HashCfg) : MerkleTree where
  nodes := fun _ _ => none
  numLeaves := 0
  roots := fun k => if k = 0 then some (cfg.defNode 0) else none

/-- The ancestor-recomputation loop of `MerkleTree::set_node`, invoked with
`depth = H`: at depth `d` (counting down to 1) the current column is
`index >> (H − d)`; the parent at `(d − 1, cur/2)` is the ordered compression
of the carried hash with the stored sibling, written when it differs from the
depth-`(d−1)` default and deleted otherwise. -/
def setNodeLoop (cfg : HashCfg) (index : Nat) : Nat → Nat → NodeMap → NodeMap
  | 0, _, m => m
  | d + 1, curHash, m =>
    let cur := index >>> (cfg.H - (d + 1))
    let sibHash := getNodeD cfg m (d + 1) (cur ^^^ 1)
    let parentHash :=
      if cur % 2 = 0 then cfg.compress curHash sibHash
      else cfg.compress sibHash curHash
    setNodeLoop cfg index d parentHash (writeOrDelete cfg m d (cur / 2) parentHash)

/-- `MerkleTree::set_node(H, index, hash)`: writes the leaf and recomputes
the path to the root in one transaction. -/
def MerkleTree.setNode (cfg : HashCfg) (s : MerkleTree) (index hash : Nat) :
    MerkleTree :=
  { s with nodes := setNodeLoop cfg index cfg.H hash (putNode s.nodes cfg.H index hash) }

/-- `MerkleTree::root()`: the stored `(0, 0)` entry or the depth-0 default. -/
def MerkleTree.root (cfg : HashCfg) (s : MerkleTree) : Nat :=
  getNodeD cfg s.nodes 0 0

/-- `MerkleTree::leaf(index)`: the stored `(H, index)` entry or the leaf
default. -/
def MerkleTree.leaf (cfg : HashCfg) (s : MerkleTree) (index : Nat) : Nat :=
  getNodeD cfg s.nodes cfg.H index

/-- `MerkleTree::historic_root(index)`: lookup in the `roots` index. -/
def MerkleTree.historicRoot (s : MerkleTree) (index : Nat) : Option Nat :=
  s.roots index

/-- `MerkleTree::add_leaf(hash)`: `set_node(H, num_leaves, hash)`, then
`num_leaves += 1`, then record the new root at key `num_leaves + 1`. -/
def MerkleTree.addLeaf (cfg : HashCfg) (s : MerkleTree) (hash : Nat) : MerkleTree :=
  let index := s.numLeaves
  let s1 := s.setNode cfg index hash
  { nodes := s1.nodes,
    numLeaves := index + 1,
    roots := fun k =>
      if k = index + 1 then some (MerkleTree.root cfg s1) else s1.roots k }

/-- Appending a whole sequence of commitments in order. -/
def appendAll (cfg : HashCfg) (s : MerkleTree) (leaves : List Nat) : MerkleTree :=
  leaves.foldl (fun t h => t.addLeaf cfg h) s

/-- The per-depth body of `MerkleTree::rollback`: at depth `d` (counting
down to 1, with `h = H − d`) it deletes every column in
`[cur+1, old_num_leaves >> h]`, recomputes the parent from the now-current
node and its sibling, and writes or deletes it by the default rule. -/
def rollbackLoop (cfg : HashCfg) (index oldNumLeaves : Nat) : Nat → NodeMap → NodeMap
  | 0, m => m
  | d + 1, m =>
    let h := cfg.H - (d + 1)
    let cur := index >>> h
    let m1 := delRange m (d + 1) (cur + 1) (oldNumLeaves >>> h)
    let current := getNodeD cfg m1 (d + 1) cur
    let sibling := getNodeD cfg m1 (d + 1) (cur ^^^ 1)
    let parentHash :=
      if cur % 2 = 1 then cfg.compress sibling current
      else cfg.compress current sibling
    rollbackLoop cfg index oldNumLeaves d (writeOrDelete cfg m1 d (cur / 2) parentHash)

/-- `MerkleTree::rollback(index)`.  For `index = 0` the store is dropped and
recreated (`Storage::clear` — note this also drops the `roots` index without
re-adding the key-0 default root) and `num_leaves` is reset.  Otherwise the
call fails when `index >= num_leaves`; on success it deletes the historic
roots in `index..old_num_leaves`, sets `num_leaves = index`, deletes the
leaf at `(H, index)` and runs the per-depth loop. -/
def MerkleTree.rollback (cfg : HashCfg) (s : MerkleTree) (index : Nat) :
    Except String MerkleTree :=
  if index = 0 then
    .ok { nodes := fun _ _ => none, numLeaves := 0, roots := fun _ => none }
  else
    if index ≥ s.numLeaves then
      .error "Cannot rollback to a higher index than the latest leaf"
    else
      .ok { nodes := rollbackLoop cfg index s.numLeaves cfg.H
              (delNode s.nodes cfg.H index),
            numLeaves := index,
            roots := fun k =>
              if index ≤ k ∧ k < s.numLeaves then none else s.roots k }

/-- `MerkleTree::merkle_proof(index)`: for `(i, depth)` in
`(0..H).rev().enumerate()` — so element `i` is read at depth `H − 1 − i` —
the stored sibling `(depth, (index >> i) ^ 1)` or that depth's default. -/
def MerkleTree.merkleProof (cfg : HashCfg) (s : MerkleTree) (index : Nat) :
    List Nat :=
  (List.range cfg.H).map fun i =>
    getNodeD cfg s.nodes (cfg.H - 1 - i) ((index >>> i) ^^^ 1)

/-- The `path` component of `MerkleTree::zp_merkle_proof(index)`:
`(0..H).rev().map(|i| (index >> i) & 1 == 0)`, MSB first. -/
def MerkleTree.zpPath (cfg : HashCfg) (index : Nat) : List Bool :=
  ((List.range cfg.H).reverse).map fun i => (index >>> i) % 2 == 0

/-- Folding a leaf against a sibling/path pair as the spec describes the
proof roundtrip: starting from the leaf and moving towards the root (the
arrays are MSB-first, so from the back), each step compresses the running
hash with the sibling, the path bit choosing the pair order (`true` = the
current node is the left child). -/
def foldProof (cfg : HashCfg) (leaf : Nat) (siblings : List Nat)
    (path : List Bool) : Nat :=
  ((siblings.zip path).reverse).foldl
    (fun cur sp => if sp.2 then cfg.compress cur sp.1 else cfg.compress sp.1 cur)
    leaf

/-- The same fold taken front-to-back, used to rule out the other reading of
the claim's fold direction. -/
def foldProofFwd (cfg : HashCfg) (leaf : Nat) (siblings : List Nat)
    (path : List Bool) : Nat :=
  (siblings.zip path).foldl
    (fun cur sp => if sp.2 then cfg.compress cur sp.1 else cfg.compress sp.1 cur)
    leaf

/-! ## Optimistic worker state mutations (`src/tx_worker.rs`) -/

/-- The two persistent stores the worker mutates: the tree behind
`ctx.tree` and the log behind `ctx.transactions`. -/
structure WorkerState where
  tree : MerkleTree
  txs : TxStorage

/-- `prepare_job`: under the tree lock, reads `next_commit_index =
num_leaves` and `prev_commit_index = next.saturating_sub(1)`, appends
`out_commit` to the tree, and pushes a placeholder row (zeroed 32-byte hash)
at `next_commit_index * TX_SIZE`.  Returns the new stores and the two
indices that go into the payload.  (Only the success path is used below; on
a push error the source propagates it.) -/
def prepareJob (cfg : HashCfg) (w : WorkerState) (outCommit : Nat)
    (memo : List Nat) : Except TxStorageError (WorkerState × Nat × Nat) :=
  let nextCommitIndex := w.tree.numLeaves
  let prevCommitIndex := nextCommitIndex - 1
  let tree1 := w.tree.addLeaf cfg outCommit
  match w.txs.set (nextCommitIndex * STRIDE) outCommit (List.replicate 32 0) memo with
  | .error e => .error e
  | .ok txs1 => .ok ({ tree := tree1, txs := txs1 }, nextCommitIndex, prevCommitIndex)

/-- `process_failure`: rolls the log and then the tree back to the payload's
`prev_commit_index` (the queue's `cancel_jobs_after` acts on the external
job store and does not touch these two stores). -/
def processFailure (cfg : HashCfg) (w : WorkerState) (prevCommitIndex : Nat) :
    Except String WorkerState :=
  let txs1 := w.txs.rollback prevCommitIndex
  match w.tree.rollback cfg prevCommitIndex with
  | .error e => .error e
  | .ok tree1 => .ok { tree := tree1, txs := txs1 }

/-- Hash parameters of the shape the deployed program uses
(`H = 41 = constants::HEIGHT − constants::OUTPLUSONELOG`), with a concrete
stand-in compression so that states can be evaluated. -/
def evalCfg : HashCfg where
  compress := fun a b => 2 * a + b + 1
  defLeaf := 0
  H := 41

set_option maxRecDepth 10000

/-- C1: after one committed transfer (one leaf, log row 0, `next_index =
128`), a failing second job carries `next_commit_index = 1` and
`prev_commit_index = 0`, and `process_failure` rolls both stores back to
`prev_commit_index = 0`: the tree ends with 0 leaves and the committed log
row at index 0 is deleted with `next_index = 0`, instead of restoring the
pre-append state (1 leaf, row 0, `next_index = 128`) required by the claim. -/
theorem processFailure_erases_committed_state :
    ∃ w1 n1 p1,
      prepareJob evalCfg { tree := MerkleTree.fresh evalCfg, txs := TxStorage.empty }
          1 [7] = .ok (w1, n1, p1) ∧
      ∃ txs1, w1.txs.set 0 1 [9] [7] = .ok txs1 ∧
      ∃ w2 n2 p2,
        prepareJob evalCfg { tree := w1.tree, txs := txs1 } 2 [8] = .ok (w2, n2, p2) ∧
        n2 = 1 ∧ p2 = 0 ∧
        w1.tree.numLeaves = 1 ∧ txs1.rows 0 ≠ none ∧ txs1.nextIndex = 128 ∧
        ∃ w3, processFailure evalCfg w2 p2 = .ok w3 ∧
          w3.tree.numLeaves = 0 ∧ w3.txs.rows 0 = none ∧ w3.txs.nextIndex = 0 :=
  ⟨_, _, _, rfl, _, rfl, _, _, _, rfl, rfl, rfl, rfl, by decide, rfl,
   _, rfl, rfl, rfl, rfl⟩

/-- C3: on the two-leaf tree, folding `leaf(0)` against the sibling list and
path bits of `zp_merkle_proof(0)` does not reproduce `root()` (in either
fold direction): `merkle_proof` reads its siblings at depths `H−1 … 0`
instead of `H … 1`, so the true leaf-level sibling `leaf(1)` never enters
the fold. -/
theorem merkleProof_fold_misses_root :
    0 < (appendAll evalCfg (MerkleTree.fresh evalCfg) [1, 2]).numLeaves ∧
    foldProof evalCfg
        ((appendAll evalCfg (MerkleTree.fresh evalCfg) [1, 2]).leaf evalCfg 0)
        ((appendAll evalCfg (MerkleTree.fresh evalCfg) [1, 2]).merkleProof evalCfg 0)
        (MerkleTree.zpPath evalCfg 0)
      ≠ (appendAll evalCfg (MerkleTree.fresh evalCfg) [1, 2]).root evalCfg ∧
    foldProofFwd evalCfg
        ((appendAll evalCfg (MerkleTree.fresh evalCfg) [1, 2]).leaf evalCfg 0)
        ((appendAll evalCfg (MerkleTree.fresh evalCfg) [1, 2]).merkleProof evalCfg 0)
        (MerkleTree.zpPath evalCfg 0)
      ≠ (appendAll evalCfg (MerkleTree.fresh evalCfg) [1, 2]).root evalCfg := by
  refine ⟨by decide, by decide, by decide⟩

/-- C4 counterexample: on the two-leaf tree, `rollback(1)` deletes the
historic root at key 1 (the claim says keys `≤ to` are unchanged) and keeps
the stale root at key 2 (the claim says keys `> to` are removed); and
`rollback(0)` drops the key-0 default root (the claim says it is kept). -/
theorem rollback_roots_counterexample :
    (∃ t, (appendAll evalCfg (MerkleTree.fresh evalCfg) [1, 2]).rollback evalCfg 1
        = .ok t ∧ t.historicRoot 1 = none ∧ t.historicRoot 2 ≠ none) ∧
    (∃ u, (appendAll evalCfg (MerkleTree.fresh evalCfg) [1, 2]).rollback evalCfg 0
        = .ok u ∧ u.historicRoot 0 = none) :=
  ⟨⟨_, rfl, rfl, by decide⟩, ⟨_, rfl, rfl⟩⟩

/-- C4 (amended): `rollback(to)` with `0 < to < num_leaves` removes the
historic-root entries for exactly the keys in `[to, old_num_leaves)` — keys
below `to` and keys from `old_num_leaves` upward (including the stale entry
at `old_num_leaves` itself) are untouched; `rollback(0)` clears the whole
`roots` index, key 0 included. -/
theorem rollback_historic_roots_frame (cfg : HashCfg) (s : MerkleTree) (toIdx : Nat) :
    (toIdx = 0 → ∃ t, s.rollback cfg 0 = .ok t ∧ ∀ k, t.historicRoot k = none) ∧
    (0 < toIdx → toIdx < s.numLeaves →
      ∃ t, s.rollback cfg toIdx = .ok t ∧
        (∀ k, k < toIdx → t.historicRoot k = s.historicRoot k) ∧
        (∀ k, toIdx ≤ k → k < s.numLeaves → t.historicRoot k = none) ∧
        (∀ k, s.numLeaves ≤ k → t.historicRoot k = s.historicRoot k)) := by
  constructor
  · intro _
    refine ⟨{ nodes := fun _ _ => none, numLeaves := 0, roots := fun _ => none },
      ?_, fun k => rfl⟩
    simp [MerkleTree.rollback]
  · intro hpos hlt
    unfold MerkleTree.rollback
    rw [if_neg (by omega), if_neg (by omega)]
    refine ⟨_, rfl, ?_, ?_, ?_⟩
    · intro k hk
      simp only [MerkleTree.historicRoot]
      rw [if_neg (by omega)]
    · intro k hk1 hk2
      simp only [MerkleTree.historicRoot]
      rw [if_pos ⟨hk1, hk2⟩]
    · intro k hk
      simp only [MerkleTree.historicRoot]
      rw [if_neg (by omega)]

/-- C4 witness: the amended frame instantiated on the two-leaf tree with
`to = 1`. -/
theorem rollback_historic_roots_frame_witness :
    0 < 1 ∧ 1 < (appendAll evalCfg (MerkleTree.fresh evalCfg) [1, 2]).numLeaves ∧
    (∃ t, (appendAll evalCfg (MerkleTree.fresh evalCfg) [1, 2]).rollback evalCfg 1
        = .ok t ∧
      (∀ k, k < 1 →
        t.historicRoot k
          = (appendAll evalCfg (MerkleTree.fresh evalCfg) [1, 2]).historicRoot k) ∧
      (∀ k, 1 ≤ k → k < (appendAll evalCfg (MerkleTree.fresh evalCfg) [1, 2]).numLeaves →
        t.historicRoot k = none) ∧
      (∀ k, (appendAll evalCfg (MerkleTree.fresh evalCfg) [1, 2]).numLeaves ≤ k →
        t.historicRoot k
          = (appendAll evalCfg (MerkleTree.fresh evalCfg) [1, 2]).historicRoot k)) :=
  ⟨Nat.one_pos, by decide,
   (rollback_historic_roots_frame evalCfg
     (appendAll evalCfg (MerkleTree.fresh evalCfg) [1, 2]) 1).2 Nat.one_pos (by decide)⟩

/-- C2 counterexample: the claim allows `k = |s|`, but on the one-leaf tree
`rollback(1)` bails with the "higher index" error
(`index >= old_num_leaves` in the source, not `index > old_num_leaves`). -/
theorem rollback_at_num_leaves_fails :
    (1 : Nat) ≤ ([1] : List Nat).length ∧
    (appendAll evalCfg (MerkleTree.fresh evalCfg) [1]).rollback evalCfg 1
      = .error "Cannot rollback to a higher index than the latest leaf" :=
  ⟨le_refl 1, rfl⟩

/-! ## Historic-roots bookkeeping of `add_leaf` -/

theorem addLeaf_numLeaves (cfg : HashCfg) (t : MerkleTree) (h : Nat) :
    (t.addLeaf cfg h).numLeaves = t.numLeaves + 1 := rfl

theorem addLeaf_root_key (cfg : HashCfg) (t : MerkleTree) (h : Nat) :
    (t.addLeaf cfg h).historicRoot (t.numLeaves + 1)
      = some ((t.addLeaf cfg h).root cfg) := by
  simp [MerkleTree.addLeaf, MerkleTree.historicRoot, MerkleTree.root]

theorem addLeaf_historicRoot_of_ne (cfg : HashCfg) (t : MerkleTree) (h k : Nat)
    (hk : k ≠ t.numLeaves + 1) :
    (t.addLeaf cfg h).historicRoot k = t.historicRoot k := by
  simp [MerkleTree.addLeaf, MerkleTree.historicRoot, MerkleTree.setNode, hk]

theorem appendAll_concat (cfg : HashCfg) (s : MerkleTree) (l : List Nat) (a : Nat) :
    appendAll cfg s (l ++ [a]) = (appendAll cfg s l).addLeaf cfg a := by
  simp [appendAll]

theorem appendAll_numLeaves (cfg : HashCfg) (l : List Nat) :
    ∀ s : MerkleTree, (appendAll cfg s l).numLeaves = s.numLeaves + l.length := by
  induction l with
  | nil => intro s; simp [appendAll]
  | cons a l ih =>
    intro s
    have : appendAll cfg s (a :: l) = appendAll cfg (s.addLeaf cfg a) l := rfl
    rw [this, ih]
    simp [addLeaf_numLeaves]
    omega

theorem appendAll_historicRoot (cfg : HashCfg) (s : List Nat) :
    ∀ j, j ≤ s.length →
      (appendAll cfg (MerkleTree.fresh cfg) s).historicRoot j
        = some ((appendAll cfg (MerkleTree.fresh cfg) (s.take j)).root cfg) := by
  induction s using List.reverseRecOn with
  | nil =>
    intro j hj
    have hj0 : j = 0 := by simpa using hj
    subst hj0
    rfl
  | append_singleton l a ih =>
    intro j hj
    rw [appendAll_concat]
    have hnum : (appendAll cfg (MerkleTree.fresh cfg) l).numLeaves = l.length := by
      rw [appendAll_numLeaves]
      simp [MerkleTree.fresh]
    rcases Nat.lt_or_ge j (l.length + 1) with hlt | hge
    · have hne : j ≠ (appendAll cfg (MerkleTree.fresh cfg) l).numLeaves + 1 := by
        omega
      rw [addLeaf_historicRoot_of_ne cfg _ a j hne]
      have htake : (l ++ [a]).take j = l.take j := by
        apply List.take_append_of_le_length
        omega
      rw [htake]
      exact ih j (by omega)
    · have hj1 : j = l.length + 1 := by
        simp at hj
        omega
      subst hj1
      have htake : (l ++ [a]).take (l.length + 1) = l ++ [a] := by
        apply List.take_of_length_le
        simp
      rw [htake, appendAll_concat]
      have := addLeaf_root_key cfg (appendAll cfg (MerkleTree.fresh cfg) l) a
      rw [hnum] at this
      exact this

/-- C8: `add_leaf` on a tree with `n` leaves bumps the count to `n + 1` and
records the new root at historic key `n + 1`; consequently, after appending
any sequence `s` to a freshly opened tree, `historic_root(j)` equals the
root of the tree holding only the first `j` leaves of `s` for every
`j ≤ |s|`, and `historic_root(0)` is the empty-tree default root recorded at
open. -/
theorem addLeaf_records_historic_root (cfg : HashCfg) (t : MerkleTree) (hsh : Nat)
    (s : List Nat) (j : Nat) (hj : j ≤ s.length) :
    (t.addLeaf cfg hsh).numLeaves = t.numLeaves + 1 ∧
    (t.addLeaf cfg hsh).historicRoot (t.numLeaves + 1)
      = some ((t.addLeaf cfg hsh).root cfg) ∧
    (appendAll cfg (MerkleTree.fresh cfg) s).numLeaves = s.length ∧
    (appendAll cfg (MerkleTree.fresh cfg) s).historicRoot j
      = some ((appendAll cfg (MerkleTree.fresh cfg) (s.take j)).root cfg) ∧
    (appendAll cfg (MerkleTree.fresh cfg) s).historicRoot 0 = some (cfg.defNode 0) := by
  refine ⟨rfl, addLeaf_root_key cfg t hsh,
    by rw [appendAll_numLeaves]; simp [MerkleTree.fresh], ?_, ?_⟩
  · exact appendAll_historicRoot cfg s j hj
  · rw [appendAll_historicRoot cfg s 0 (Nat.zero_le _)]
    rfl

/-- C8 witness: instantiated on the two-leaf evaluation tree at `j = 1`. -/
theorem addLeaf_records_historic_root_witness :
    (1 : Nat) ≤ ([1, 2] : List Nat).length ∧
    ((MerkleTree.fresh evalCfg).addLeaf evalCfg 5).numLeaves
        = (MerkleTree.fresh evalCfg).numLeaves + 1 ∧
    ((MerkleTree.fresh evalCfg).addLeaf evalCfg 5).historicRoot
        ((MerkleTree.fresh evalCfg).numLeaves + 1)
      = some (((MerkleTree.fresh evalCfg).addLeaf evalCfg 5).root evalCfg) ∧
    (appendAll evalCfg (MerkleTree.fresh evalCfg) [1, 2]).numLeaves
        = ([1, 2] : List Nat).length ∧
    (appendAll evalCfg (MerkleTree.fresh evalCfg) [1, 2]).historicRoot 1
      = some ((appendAll evalCfg (MerkleTree.fresh evalCfg)
          (([1, 2] : List Nat).take 1)).root evalCfg) ∧
    (appendAll evalCfg (MerkleTree.fresh evalCfg) [1, 2]).historicRoot 0
      = some (evalCfg.defNode 0) :=
  ⟨by decide,
   addLeaf_records_historic_root evalCfg (MerkleTree.fresh evalCfg) 5 [1, 2] 1
     (by decide)⟩

/-! ## Semantic node values

To relate `rollback` to `add_leaf` we give every node position its
mathematical value for a given leaf sequence: `semHeight L lvl j` is the
hash of the subtree `lvl` levels above the leaves at column `j`, leaves
beyond `L` taking the default. -/

/-- Mathematical node value: `lvl` levels above the leaves, column `j`. -/
def semHeight (cfg : HashCfg) (L : List Nat) : Nat → Nat → Nat
  | 0, j => (L.get? j).getD cfg.defLeaf
  | lvl + 1, j =>
    cfg.compress (semHeight cfg L lvl (2 * j)) (semHeight cfg L lvl (2 * j + 1))

theorem nat_xor_one (n : Nat) : n ^^^ 1 = if n % 2 = 0 then n + 1 else n - 1 := by
  rcases Nat.mod_two_eq_zero_or_one n with h | h
  · obtain ⟨q, rfl⟩ : ∃ q, n = 2 * q := ⟨n / 2, by omega⟩
    rw [if_pos h]
    have h1 : (1 : Nat) = Nat.bit true 0 := rfl
    have h2 : 2 * q = Nat.bit false q := by simp [Nat.bit_val]
    rw [h1, h2, Nat.xor_bit]
    simp [Nat.bit_val]
  · obtain ⟨q, rfl⟩ : ∃ q, n = 2 * q + 1 := ⟨n / 2, by omega⟩
    rw [if_neg (by omega)]
    have h1 : (1 : Nat) = Nat.bit true 0 := rfl
    have h2 : 2 * q + 1 = Nat.bit true q := by simp [Nat.bit_val]
    rw [h2, h1, Nat.xor_bit]
    simp [Nat.bit_val]

theorem getNodeD_put_same (cfg : HashCfg) (m : NodeMap) (d i v : Nat) :
    getNodeD cfg (putNode m d i v) d i = v := by
  simp [getNodeD, putNode]

theorem getNodeD_put_ne (cfg : HashCfg) (m : NodeMap) (d i v e j : Nat)
    (h : ¬(e = d ∧ j = i)) :
    getNodeD cfg (putNode m d i v) e j = getNodeD cfg m e j := by
  simp [getNodeD, putNode, h]

theorem getNodeD_del_same (cfg : HashCfg) (m : NodeMap) (d i : Nat) :
    getNodeD cfg (delNode m d i) d i = cfg.defNode d := by
  simp [getNodeD, delNode]

theorem getNodeD_del_ne (cfg : HashCfg) (m : NodeMap) (d i e j : Nat)
    (h : ¬(e = d ∧ j = i)) :
    getNodeD cfg (delNode m d i) e j = getNodeD cfg m e j := by
  simp [getNodeD, delNode, h]

theorem getNodeD_writeOrDelete_same (cfg : HashCfg) (m : NodeMap) (d i v : Nat) :
    getNodeD cfg (writeOrDelete cfg m d i v) d i = v := by
  unfold writeOrDelete
  by_cases h : v = cfg.defNode d
  · rw [if_pos h, getNodeD_del_same, h]
  · rw [if_neg h, getNodeD_put_same]

theorem getNodeD_writeOrDelete_ne (cfg : HashCfg) (m : NodeMap) (d i v e j : Nat)
    (h : ¬(e = d ∧ j = i)) :
    getNodeD cfg (writeOrDelete cfg m d i v) e j = getNodeD cfg m e j := by
  unfold writeOrDelete
  by_cases hv : v = cfg.defNode d
  · rw [if_pos hv, getNodeD_del_ne cfg m d i e j h]
  · rw [if_neg hv, getNodeD_put_ne cfg m d i v e j h]

theorem getNodeD_delRange_in (cfg : HashCfg) (m : NodeMap) (d lo hi j : Nat)
    (h1 : lo ≤ j) (h2 : j ≤ hi) :
    getNodeD cfg (delRange m d lo hi) d j = cfg.defNode d := by
  simp [getNodeD, delRange, h1, h2]

theorem getNodeD_delRange_out (cfg : HashCfg) (m : NodeMap) (d lo hi e j : Nat)
    (h : ¬(e = d ∧ lo ≤ j ∧ j ≤ hi)) :
    getNodeD cfg (delRange m d lo hi) e j = getNodeD cfg m e j := by
  simp [getNodeD, delRange, h]

theorem defNode_succ (cfg : HashCfg) (d : Nat) (hd : d + 1 ≤ cfg.H) :
    cfg.defNode d = cfg.compress (cfg.defNode (d + 1)) (cfg.defNode (d + 1)) := by
  unfold HashCfg.defNode
  have h : cfg.H - d = (cfg.H - (d + 1)) + 1 := by omega
  rw [h]
  rfl

/-- A node whose whole subtree lies beyond the sequence has the default
value of its level. -/
theorem semHeight_default (cfg : HashCfg) (L : List Nat) :
    ∀ lvl j, L.length ≤ j * 2 ^ lvl →
      semHeight cfg L lvl j = dupIter cfg.compress lvl cfg.defLeaf := by
  intro lvl
  induction lvl with
  | zero =>
    intro j hj
    rw [semHeight, List.get?_eq_none.mpr (by simpa using hj)]
    rfl
  | succ lvl ih =>
    intro j hj
    have hb1 : L.length ≤ 2 * j * 2 ^ lvl := by
      calc L.length ≤ j * 2 ^ (lvl + 1) := hj
        _ = 2 * j * 2 ^ lvl := by ring
    have hb2 : L.length ≤ (2 * j + 1) * 2 ^ lvl := by
      calc L.length ≤ 2 * j * 2 ^ lvl := hb1
        _ ≤ (2 * j + 1) * 2 ^ lvl := by
              exact Nat.mul_le_mul_right _ (by omega)
    rw [semHeight, ih (2 * j) hb1, ih (2 * j + 1) hb2]
    rfl

/-- A node whose whole subtree lies below `k` is unchanged by `take k`. -/
theorem semHeight_take (cfg : HashCfg) (L : List Nat) (k : Nat) :
    ∀ lvl j, (j + 1) * 2 ^ lvl ≤ k →
      semHeight cfg (L.take k) lvl j = semHeight cfg L lvl j := by
  intro lvl
  induction lvl with
  | zero =>
    intro j hj
    rw [semHeight, semHeight, List.get?_take (by omega)]
  | succ lvl ih =>
    intro j hj
    have hb1 : (2 * j + 1) * 2 ^ lvl ≤ k := by
      calc (2 * j + 1) * 2 ^ lvl ≤ (2 * j + 2) * 2 ^ lvl := by
            exact Nat.mul_le_mul_right _ (by omega)
        _ = (j + 1) * 2 ^ (lvl + 1) := by ring
        _ ≤ k := hj
    have hb2 : (2 * j + 2) * 2 ^ lvl ≤ k := by
      calc (2 * j + 2) * 2 ^ lvl = (j + 1) * 2 ^ (lvl + 1) := by ring
        _ ≤ k := hj
    rw [semHeight, semHeight, ih (2 * j) hb1, ih (2 * j + 1) hb2]

/-- Appending one leaf changes the value only along that leaf's path. -/
theorem semHeight_snoc_ne (cfg : HashCfg) (L : List Nat) (a : Nat) :
    ∀ lvl j, j ≠ L.length >>> lvl →
      semHeight cfg (L ++ [a]) lvl j = semHeight cfg L lvl j := by
  intro lvl
  induction lvl with
  | zero =>
    intro j hj
    rw [Nat.shiftRight_zero] at hj
    rcases Nat.lt_or_ge j L.length with h | h
    · rw [semHeight, semHeight, List.get?_append h]
    · have hgt : L.length < j := by omega
      rw [semHeight, semHeight, List.get?_eq_none.mpr (by simp; omega),
        List.get?_eq_none.mpr (by omega)]
  | succ lvl ih =>
    intro j hj
    have hdiv : L.length >>> (lvl + 1) = (L.length >>> lvl) / 2 :=
      Nat.shiftRight_succ L.length lvl
    have h1 : 2 * j ≠ L.length >>> lvl := by
      intro hcontra
      apply hj
      omega
    have h2 : 2 * j + 1 ≠ L.length >>> lvl := by
      intro hcontra
      apply hj
      omega
    rw [semHeight, semHeight, ih (2 * j) h1, ih (2 * j + 1) h2]

/-- The appended leaf itself. -/
theorem semHeight_snoc_self (cfg : HashCfg) (L : List Nat) (a : Nat) :
    semHeight cfg (L ++ [a]) 0 L.length = a := by
  rw [semHeight, List.get?_concat_length]
  rfl

theorem lt_shiftRight_mul (j n lvl : Nat) (h : j < n >>> lvl) :
    (j + 1) * 2 ^ lvl ≤ n := by
  rw [Nat.shiftRight_eq_div_pow] at h
  calc (j + 1) * 2 ^ lvl ≤ n / 2 ^ lvl * 2 ^ lvl := Nat.mul_le_mul_right _ (by omega)
    _ ≤ n := Nat.div_mul_le_self n (2 ^ lvl)

theorem shiftRight_lt_mul (j n lvl : Nat) (h : n >>> lvl < j) :
    n < j * 2 ^ lvl := by
  rw [Nat.shiftRight_eq_div_pow] at h
  exact (Nat.div_lt_iff_lt_mul (Nat.pos_pow_of_pos lvl (by omega))).mp h

theorem lt_shiftRight_succ_mul (n lvl : Nat) : n < (n >>> lvl + 1) * 2 ^ lvl := by
  rw [Nat.shiftRight_eq_div_pow]
  have hmod : n % 2 ^ lvl < 2 ^ lvl := Nat.mod_lt _ (Nat.pos_pow_of_pos lvl (by omega))
  have hdm : 2 ^ lvl * (n / 2 ^ lvl) + n % 2 ^ lvl = n := Nat.div_add_mod n (2 ^ lvl)
  have hexp : (n / 2 ^ lvl + 1) * 2 ^ lvl = 2 ^ lvl * (n / 2 ^ lvl) + 2 ^ lvl := by ring
  rw [hexp]
  omega

/-- Compressing a node with its sibling in the order chosen by parity gives
the parent's semantic value. -/
theorem semHeight_parent (cfg : HashCfg) (M : List Nat) (lvl cur : Nat) :
    (if cur % 2 = 0
      then cfg.compress (semHeight cfg M lvl cur) (semHeight cfg M lvl (cur ^^^ 1))
      else cfg.compress (semHeight cfg M lvl (cur ^^^ 1)) (semHeight cfg M lvl cur))
    = semHeight cfg M (lvl + 1) (cur / 2) := by
  rcases Nat.mod_two_eq_zero_or_one cur with hpar | hpar
  · rw [if_pos hpar, nat_xor_one, if_pos hpar, semHeight,
      show 2 * (cur / 2) = cur by omega]
  · rw [if_neg (by omega), nat_xor_one, if_neg (by omega), semHeight,
      show 2 * (cur / 2) = cur - 1 by omega, show cur - 1 + 1 = cur by omega]

/-- The same, with the if-condition written the way `rollback` spells it. -/
theorem semHeight_parent_r (cfg : HashCfg) (M : List Nat) (lvl cur : Nat) :
    (if cur % 2 = 1
      then cfg.compress (semHeight cfg M lvl (cur ^^^ 1)) (semHeight cfg M lvl cur)
      else cfg.compress (semHeight cfg M lvl cur) (semHeight cfg M lvl (cur ^^^ 1)))
    = semHeight cfg M (lvl + 1) (cur / 2) := by
  rcases Nat.mod_two_eq_zero_or_one cur with hpar | hpar
  · rw [if_neg (by omega)]
    have h := semHeight_parent cfg M lvl cur
    rw [if_pos hpar] at h
    exact h
  · rw [if_pos hpar]
    have h := semHeight_parent cfg M lvl cur
    rw [if_neg (by omega)] at h
    exact h

/-- The store agrees (through `getNodeD`) with the semantic values of the
leaf sequence `L` at every depth and column. -/
def TreeInv (cfg : HashCfg) (L : List Nat) (m : NodeMap) : Prop :=
  ∀ d j, d ≤ cfg.H → getNodeD cfg m d j = semHeight cfg L (cfg.H - d) j

theorem treeInv_empty (cfg : HashCfg) : TreeInv cfg [] (fun _ _ => none) := by
  intro d j _
  show cfg.defNode d = semHeight cfg [] (cfg.H - d) j
  rw [semHeight_default cfg [] (cfg.H - d) j (by simp)]
  rfl

/-- The `set_node` loop repairs the invariant along the freshly appended
leaf's path: if depths `≥ d` already show the new sequence and depths `< d`
still show the old one, running the loop from `d` makes every depth show the
new sequence. -/
theorem setNodeLoop_inv (cfg : HashCfg) (L : List Nat) (a : Nat) :
    ∀ d, d ≤ cfg.H → ∀ (m : NodeMap) (curHash : Nat),
      (∀ e j, d ≤ e → e ≤ cfg.H →
        getNodeD cfg m e j = semHeight cfg (L ++ [a]) (cfg.H - e) j) →
      (∀ e j, e < d → getNodeD cfg m e j = semHeight cfg L (cfg.H - e) j) →
      curHash = semHeight cfg (L ++ [a]) (cfg.H - d) (L.length >>> (cfg.H - d)) →
      ∀ e j, e ≤ cfg.H →
        getNodeD cfg (setNodeLoop cfg L.length d curHash m) e j
          = semHeight cfg (L ++ [a]) (cfg.H - e) j := by
  intro d
  induction d with
  | zero =>
    intro _ m curHash hi _ _ e j he
    exact hi e j (Nat.zero_le e) he
  | succ d ih =>
    intro hdH m curHash hi lo hcur e j he
    simp only [setNodeLoop]
    have hd1 : d + 1 ≤ cfg.H := hdH
    have hsplit : cfg.H - d = (cfg.H - (d + 1)) + 1 := by omega
    have hhalf : L.length >>> (cfg.H - d)
        = L.length >>> (cfg.H - (d + 1)) / 2 := by
      rw [hsplit, Nat.shiftRight_succ]
    have hsib : getNodeD cfg m (d + 1) (L.length >>> (cfg.H - (d + 1)) ^^^ 1)
        = semHeight cfg (L ++ [a]) (cfg.H - (d + 1))
            (L.length >>> (cfg.H - (d + 1)) ^^^ 1) :=
      hi (d + 1) _ (le_refl _) hd1
    have hP : (if L.length >>> (cfg.H - (d + 1)) % 2 = 0
          then cfg.compress curHash
            (getNodeD cfg m (d + 1) (L.length >>> (cfg.H - (d + 1)) ^^^ 1))
          else cfg.compress
            (getNodeD cfg m (d + 1) (L.length >>> (cfg.H - (d + 1)) ^^^ 1)) curHash)
        = semHeight cfg (L ++ [a]) (cfg.H - d)
            (L.length >>> (cfg.H - d)) := by
      rw [hcur, hsib, semHeight_parent, hhalf, hsplit]
    rw [show L.length >>> (cfg.H - (d + 1)) / 2
        = L.length >>> (cfg.H - d) from hhalf.symm]
    rw [hP]
    refine ih (by omega) _ _ ?_ ?_ rfl e j he
    · intro e2 j2 hle hle2
      rcases eq_or_ne e2 d with heq | hne
      · subst heq
        rcases eq_or_ne j2 (L.length >>> (cfg.H - e2)) with hj | hj
        · subst hj
          rw [getNodeD_writeOrDelete_same]
        · rw [getNodeD_writeOrDelete_ne cfg _ _ _ _ _ _ (by tauto)]
          rw [semHeight_snoc_ne cfg L a _ j2 hj]
          exact lo e2 j2 (by omega)
      · rw [getNodeD_writeOrDelete_ne cfg _ _ _ _ _ _ (by tauto)]
        exact hi e2 j2 (by omega) hle2
    · intro e2 j2 hlt
      rw [getNodeD_writeOrDelete_ne cfg _ _ _ _ _ _ (by omega)]
      exact lo e2 j2 (by omega)

/-- `add_leaf` preserves the invariant, extending the sequence. -/
theorem treeInv_addLeaf (cfg : HashCfg) (L : List Nat) (a : Nat) (s : MerkleTree)
    (hinv : TreeInv cfg L s.nodes) (hnum : s.numLeaves = L.length) :
    TreeInv cfg (L ++ [a]) (s.addLeaf cfg a).nodes := by
  intro d j hd
  have hrw : (s.addLeaf cfg a).nodes
      = setNodeLoop cfg L.length cfg.H a (putNode s.nodes cfg.H L.length a) := by
    rw [← hnum]
    rfl
  rw [hrw]
  have hHH : cfg.H - cfg.H = 0 := by omega
  refine setNodeLoop_inv cfg L a cfg.H (le_refl _) _ a ?_ ?_ ?_ d j hd
  · intro e j2 hle hle2
    have he : e = cfg.H := by omega
    subst he
    rw [hHH]
    rcases eq_or_ne j2 L.length with hj | hj
    · subst hj
      rw [getNodeD_put_same]
      exact (semHeight_snoc_self cfg L a).symm
    · rw [getNodeD_put_ne cfg _ _ _ _ _ _ (by tauto)]
      rw [semHeight_snoc_ne cfg L a 0 j2 (by rwa [Nat.shiftRight_zero])]
      have h := hinv cfg.H j2 (le_refl _)
      rwa [hHH] at h
  · intro e j2 hlt
    rw [getNodeD_put_ne cfg _ _ _ _ _ _ (by omega)]
    exact hinv e j2 (by omega)
  · rw [hHH, Nat.shiftRight_zero]
    exact (semHeight_snoc_self cfg L a).symm

/-- Appending a sequence to a fresh tree realizes its semantic values. -/
theorem treeInv_appendAll (cfg : HashCfg) (L : List Nat) :
    TreeInv cfg L (appendAll cfg (MerkleTree.fresh cfg) L).nodes := by
  induction L using List.reverseRecOn with
  | nil => exact treeInv_empty cfg
  | append_singleton l a ih =>
    rw [appendAll_concat]
    refine treeInv_addLeaf cfg l a _ ih ?_
    rw [appendAll_numLeaves]
    simp [MerkleTree.fresh]

theorem root_appendAll (cfg : HashCfg) (L : List Nat) :
    (appendAll cfg (MerkleTree.fresh cfg) L).root cfg = semHeight cfg L cfg.H 0 := by
  have h := treeInv_appendAll cfg L 0 0 (Nat.zero_le _)
  rwa [Nat.sub_zero] at h

/-- The `rollback` loop: starting from a store that shows the truncated
sequence at depths above `d` and on the path node at `d`, and the old
sequence elsewhere, the surviving root cell shows the truncated sequence. -/
theorem rollbackLoop_inv (cfg : HashCfg) (L : List Nat) (k : Nat)
    (hkL : k ≤ L.length) :
    ∀ d, d ≤ cfg.H → ∀ m : NodeMap,
      (∀ e j, d < e → e ≤ cfg.H →
        getNodeD cfg m e j = semHeight cfg (L.take k) (cfg.H - e) j) →
      (getNodeD cfg m d (k >>> (cfg.H - d))
        = semHeight cfg (L.take k) (cfg.H - d) (k >>> (cfg.H - d))) →
      (∀ j, j ≠ k >>> (cfg.H - d) →
        getNodeD cfg m d j = semHeight cfg L (cfg.H - d) j) →
      (∀ e j, e < d → getNodeD cfg m e j = semHeight cfg L (cfg.H - e) j) →
      getNodeD cfg (rollbackLoop cfg k L.length d m) 0 (k >>> cfg.H)
        = semHeight cfg (L.take k) cfg.H (k >>> cfg.H) := by
  intro d
  induction d with
  | zero =>
    intro _ m _ hb _ _
    have h0 : cfg.H - 0 = cfg.H := by omega
    rw [rollbackLoop]
    rw [h0] at hb
    exact hb
  | succ d ih =>
    intro hdH m ha hb hc hlow
    simp only [rollbackLoop]
    have hd1 : d + 1 ≤ cfg.H := hdH
    have hsplit : cfg.H - d = (cfg.H - (d + 1)) + 1 := by omega
    have hhalf : k >>> (cfg.H - d) = k >>> (cfg.H - (d + 1)) / 2 := by
      rw [hsplit, Nat.shiftRight_succ]
    -- every cell of the level being processed shows the truncated sequence
    -- after the range deletion
    have hall : ∀ j2,
        getNodeD cfg (delRange m (d + 1) (k >>> (cfg.H - (d + 1)) + 1)
            (L.length >>> (cfg.H - (d + 1)))) (d + 1) j2
          = semHeight cfg (L.take k) (cfg.H - (d + 1)) j2 := by
      intro j2
      rcases Nat.lt_trichotomy j2 (k >>> (cfg.H - (d + 1))) with hlt | heq | hgt
      · rw [getNodeD_delRange_out cfg _ _ _ _ _ _ (by omega)]
        rw [semHeight_take cfg L k (cfg.H - (d + 1)) j2
          (lt_shiftRight_mul j2 k (cfg.H - (d + 1)) hlt)]
        exact hc j2 (by omega)
      · subst heq
        rw [getNodeD_delRange_out cfg _ _ _ _ _ _ (by omega)]
        exact hb
      · rcases le_or_lt j2 (L.length >>> (cfg.H - (d + 1))) with hle | hgt2
        · rw [getNodeD_delRange_in cfg _ _ _ _ _ (by omega) hle]
          rw [semHeight_default cfg (L.take k) (cfg.H - (d + 1)) j2 ?_]
          · rfl
          · have hk2 : k < (k >>> (cfg.H - (d + 1)) + 1) * 2 ^ (cfg.H - (d + 1)) :=
              lt_shiftRight_succ_mul k (cfg.H - (d + 1))
            have hmono : (k >>> (cfg.H - (d + 1)) + 1) * 2 ^ (cfg.H - (d + 1))
                ≤ j2 * 2 ^ (cfg.H - (d + 1)) :=
              Nat.mul_le_mul_right _ (by omega)
            calc (L.take k).length ≤ k := by
                  rw [List.length_take]; omega
              _ ≤ j2 * 2 ^ (cfg.H - (d + 1)) := by omega
        · have hjk : j2 ≠ k >>> (cfg.H - (d + 1)) := by omega
          rw [getNodeD_delRange_out cfg _ _ _ _ _ _ (by omega)]
          rw [hc j2 hjk]
          have hLd : L.length < j2 * 2 ^ (cfg.H - (d + 1)) :=
            shiftRight_lt_mul j2 L.length (cfg.H - (d + 1)) hgt2
          rw [semHeight_default cfg L (cfg.H - (d + 1)) j2 (by omega)]
          rw [semHeight_default cfg (L.take k) (cfg.H - (d + 1)) j2 ?_]
          · rw [List.length_take]
            omega
    have hPr : (if k >>> (cfg.H - (d + 1)) % 2 = 1
          then cfg.compress
            (getNodeD cfg (delRange m (d + 1) (k >>> (cfg.H - (d + 1)) + 1)
              (L.length >>> (cfg.H - (d + 1)))) (d + 1)
              (k >>> (cfg.H - (d + 1)) ^^^ 1))
            (getNodeD cfg (delRange m (d + 1) (k >>> (cfg.H - (d + 1)) + 1)
              (L.length >>> (cfg.H - (d + 1)))) (d + 1) (k >>> (cfg.H - (d + 1))))
          else cfg.compress
            (getNodeD cfg (delRange m (d + 1) (k >>> (cfg.H - (d + 1)) + 1)
              (L.length >>> (cfg.H - (d + 1)))) (d + 1) (k >>> (cfg.H - (d + 1))))
            (getNodeD cfg (delRange m (d + 1) (k >>> (cfg.H - (d + 1)) + 1)
              (L.length >>> (cfg.H - (d + 1)))) (d + 1)
              (k >>> (cfg.H - (d + 1)) ^^^ 1)))
        = semHeight cfg (L.take k) (cfg.H - d) (k >>> (cfg.H - d)) := by
      rw [hall, hall, semHeight_parent_r, hhalf, hsplit]
    rw [show k >>> (cfg.H - (d + 1)) / 2 = k >>> (cfg.H - d) from hhalf.symm]
    rw [hPr]
    refine ih (by omega) _ ?_ ?_ ?_ ?_
    · intro e2 j2 hlt hle
      rcases eq_or_ne e2 (d + 1) with heq | hne
      · subst heq
        rw [getNodeD_writeOrDelete_ne cfg _ _ _ _ _ _ (by omega)]
        exact hall j2
      · rw [getNodeD_writeOrDelete_ne cfg _ _ _ _ _ _ (by omega)]
        rw [getNodeD_delRange_out cfg _ _ _ _ _ _ (by tauto)]
        exact ha e2 j2 (by omega) hle
    · rw [getNodeD_writeOrDelete_same]
    · intro j2 hj2
      rw [getNodeD_writeOrDelete_ne cfg _ _ _ _ _ _ (by tauto)]
      rw [getNodeD_delRange_out cfg _ _ _ _ _ _ (by omega)]
      exact hlow d j2 (by omega)
    · intro e2 j2 hlt
      rw [getNodeD_writeOrDelete_ne cfg _ _ _ _ _ _ (by omega)]
      rw [getNodeD_delRange_out cfg _ _ _ _ _ _ (by omega)]
      exact hlow e2 j2 (by omega)

/-- C2 (amended): on a tree built by appending `s` (within capacity),
`rollback(k)` succeeds when `k = 0` or `k < |s|`, restoring `root()` to the
root of the `k`-leaf prefix tree and `num_leaves` to `k`; for `k ≠ 0` with
`k ≥ |s| = num_leaves` (including `k = |s|`, which the claim admits) it
fails. -/
theorem rollback_inverts_append (cfg : HashCfg) (s : List Nat) (k : Nat)
    (hcap : s.length ≤ 2 ^ cfg.H) :
    (k = 0 ∨ k < s.length →
      ∃ t, (appendAll cfg (MerkleTree.fresh cfg) s).rollback cfg k = .ok t ∧
        t.root cfg = (appendAll cfg (MerkleTree.fresh cfg) (s.take k)).root cfg ∧
        t.numLeaves = k) ∧
    (k ≠ 0 → s.length ≤ k →
      ∃ msg, (appendAll cfg (MerkleTree.fresh cfg) s).rollback cfg k
        = .error msg) := by
  have hnum : (appendAll cfg (MerkleTree.fresh cfg) s).numLeaves = s.length := by
    rw [appendAll_numLeaves]
    simp [MerkleTree.fresh]
  constructor
  · intro hk
    rcases eq_or_ne k 0 with hk0 | hk0
    · subst hk0
      refine ⟨_, by rw [MerkleTree.rollback, if_pos rfl], ?_, rfl⟩
      rw [List.take_zero]
      rfl
    · have hklt : k < s.length := hk.resolve_left hk0
      unfold MerkleTree.rollback
      rw [hnum, if_neg hk0, if_neg (by omega)]
      refine ⟨_, rfl, ?_, rfl⟩
      show getNodeD cfg (rollbackLoop cfg k s.length cfg.H
        (delNode (appendAll cfg (MerkleTree.fresh cfg) s).nodes cfg.H k)) 0 0 = _
      have hk2H : k >>> cfg.H = 0 := by
        rw [Nat.shiftRight_eq_div_pow]
        exact Nat.div_eq_of_lt (by omega)
      have hHH : cfg.H - cfg.H = 0 := by omega
      have hroot := rollbackLoop_inv cfg s k (by omega) cfg.H (le_refl _)
        (delNode (appendAll cfg (MerkleTree.fresh cfg) s).nodes cfg.H k)
        (by intro e j h1 h2; omega)
        (by
          rw [hHH, Nat.shiftRight_zero, getNodeD_del_same]
          rw [semHeight, List.get?_eq_none.mpr (by rw [List.length_take]; omega)]
          unfold HashCfg.defNode
          rw [hHH]
          rfl)
        (by
          intro j hj
          rw [hHH, Nat.shiftRight_zero] at hj
          rw [getNodeD_del_ne cfg _ _ _ _ _ (by tauto)]
          exact treeInv_appendAll cfg s cfg.H j (le_refl _))
        (by
          intro e j hlt
          rw [getNodeD_del_ne cfg _ _ _ _ _ (by omega)]
          exact treeInv_appendAll cfg s e j (by omega))
      rw [hk2H] at hroot
      rw [hroot, root_appendAll]
  · intro hk0 hge
    unfold MerkleTree.rollback
    rw [hnum, if_neg hk0, if_pos (by omega)]
    exact ⟨_, rfl⟩

/-- C2 witness: rolling the two-leaf evaluation tree back to one leaf
restores the one-leaf root. -/
theorem rollback_inverts_append_witness :
    ([1, 2] : List Nat).length ≤ 2 ^ evalCfg.H ∧
    (∃ t, (appendAll evalCfg (MerkleTree.fresh evalCfg) [1, 2]).rollback evalCfg 1
        = .ok t ∧
      t.root evalCfg
        = (appendAll evalCfg (MerkleTree.fresh evalCfg)
            (([1, 2] : List Nat).take 1)).root evalCfg ∧
      t.numLeaves = 1) :=
  ⟨by decide,
   (rollback_inverts_append evalCfg [1, 2] 1 (by decide)).1 (Or.inr (by decide))⟩

end ZeropoolRelayer
